import Mathlib

/-!
Verification development for the Butterfly chaotic cryptosystem.

The repository ships a React frontend (attractor visualization, encryption
panel, metrics dashboard) whose backend crypto core (chaotic map library,
hybrid mixer, CKDF, permutation/diffusion cipher, metrics engine) is
described by the specification.  The frontend components are embedded
directly from the JavaScript source; the backend core is modelled from the
specification, over exact rational arithmetic with an explicit fixed-point
quantization step standing in for 64-bit floating point (the specification
itself requires a pinned, deterministic evaluation order for all numeric
work).
-/

namespace Butterfly

/-- Word-sized modulus used by the integer hash / whitening model. -/
def wordMod : ℕ := 18446744073709551616

/-- Fixed-point quantization: rounds a rational down to a multiple of
2⁻³², modelling the finite-precision arithmetic of the backend while
keeping every value exactly representable. -/
def quant (x : ℚ) : ℚ := (⌊x * 4294967296⌋ : ℚ) / 4294967296

/-- Map parameters, mirroring the `params` state of `App.js`
(logistic_r, henon_a, henon_b, lorenz_sigma, lorenz_rho, lorenz_beta,
sine_mu). -/
structure MapParams where
  logistic_r : ℚ
  henon_a : ℚ
  henon_b : ℚ
  lorenz_sigma : ℚ
  lorenz_rho : ℚ
  lorenz_beta : ℚ
  sine_mu : ℚ
deriving DecidableEq

/-- Default parameters from `App.js` (`useState` initial value). -/
def defaultParams : MapParams :=
  ⟨399/100, 7/5, 3/10, 10, 28, 8/3, 99/100⟩

/-- Mixing weights: the ordered 4-tuple (α, β, γ, δ) of `App.js`
(initial value `[0.25, 0.25, 0.25, 0.25]`). -/
structure MixWeights where
  w0 : ℚ
  w1 : ℚ
  w2 : ℚ
  w3 : ℚ
deriving DecidableEq

/-- Default mixing weights from `App.js`. -/
def defaultMixing : MixWeights := ⟨1/4, 1/4, 1/4, 1/4⟩

/-- Sum of the four mixing weights. -/
def mixWeightSum (w : MixWeights) : ℚ := w.w0 + w.w1 + w.w2 + w.w3

/-- Modelled from the spec: the Logistic map step x ↦ r·x·(1−x)
(map library, §4.1), quantized to the model's fixed precision. -/
def logisticStep (r x : ℚ) : ℚ := quant (r * x * (1 - x))

/-- Modelled from the spec: the Hénon map step
(x, y) ↦ (1 − a·x² + y, b·x) (map library, §4.1), quantized. -/
def henonStep (a b : ℚ) (s : ℚ × ℚ) : ℚ × ℚ :=
  (quant (1 - a * s.1 ^ 2 + s.2), quant (b * s.1))

/-- Lorenz Euler time step Δt = 0.01, exactly as in
`generateLorenzAttractor` of `AttractorVisualization.js` (`const dt = 0.01`). -/
def lorenzDt : ℚ := 1/100

/-- One explicit-Euler step of the Lorenz system, embedded from
`generateLorenzAttractor` in `AttractorVisualization.js`: all three
derivatives (σ(y−x), x(ρ−z)−y, xy−βz) are computed from the current state,
then every coordinate is advanced by derivative·Δt. -/
def lorenzEulerStep (sigma rho beta : ℚ) (s : ℚ × ℚ × ℚ) : ℚ × ℚ × ℚ :=
  let dx := sigma * (s.2.1 - s.1)
  let dy := s.1 * (rho - s.2.2) - s.2.1
  let dz := s.1 * s.2.1 - beta * s.2.2
  (s.1 + dx * lorenzDt, s.2.1 + dy * lorenzDt, s.2.2 + dz * lorenzDt)

/-- Modelled from the spec: the backend's Lorenz step (map library, §4.1),
the same explicit-Euler step quantized to the model's fixed precision. -/
def lorenzStepQ (sigma rho beta : ℚ) (s : ℚ × ℚ × ℚ) : ℚ × ℚ × ℚ :=
  let t := lorenzEulerStep sigma rho beta s
  (quant t.1, quant t.2.1, quant t.2.2)

/-- Modelled from the spec: the Sine map step x ↦ μ·sin(πx) (map library,
§4.1); sin(πx) is represented by the parabolic surrogate 4x(1−x) on [0,1]
(an exact-arithmetic stand-in — no claim settled here depends on the exact
transcendental values), quantized. -/
def sineStep (mu x : ℚ) : ℚ := quant (mu * (4 * x * (1 - x)))

/-- Modelled from the spec (§4.2): folding of an unbounded map coordinate
into [0,1) via `fractional_part(|x| / scale)` with a fixed per-map scale. -/
def foldUnit (scale x : ℚ) : ℚ := Int.fract (|x| / scale)

/-- Fixed folding scale for the Hénon coordinate (spec §4.2, fixed
per-map constant). -/
def henonScale : ℚ := 2

/-- Fixed folding scale for the Lorenz coordinate (spec §4.2, fixed
per-map constant). -/
def lorenzScale : ℚ := 50

/-- Modelled from the spec (§4.2): the hybrid mixer.  Logistic/Sine
outputs are used as already bounded, Hénon and Lorenz coordinates are
folded, the weighted sum uses the caller's weights exactly as supplied
(no normalization of the weight vector), and the result is reduced
modulo 1 to stay in [0,1). -/
def mix (f : ℚ × ℚ × ℚ × ℚ) (w : MixWeights) : ℚ :=
  Int.fract (w.w0 * f.1 + w.w1 * foldUnit henonScale f.2.1 +
    w.w2 * foldUnit lorenzScale f.2.2.1 + w.w3 * f.2.2.2)

/-- Alternative mixer following the spec's UI wording ("α + β + γ + δ
should = 1.0 (auto-normalized)", `ParameterControls.js`): the weight
vector is first normalized to sum to 1.  Used only to compare against
`mix`, which the core actually uses. -/
def mixWithNormalizedWeights (f : ℚ × ℚ × ℚ × ℚ) (w : MixWeights) : ℚ :=
  let s := mixWeightSum w
  if s = 0 then mix f w else mix f ⟨w.w0 / s, w.w1 / s, w.w2 / s, w.w3 / s⟩

/-- Combined state of the four chaotic maps (spec §4.3 step 1). -/
structure ChaosState where
  lo : ℚ
  he : ℚ × ℚ
  lz : ℚ × ℚ × ℚ
  si : ℚ
deriving DecidableEq

/-- Advance all four maps by one step (spec §4.3). -/
def stepState (p : MapParams) (st : ChaosState) : ChaosState :=
  ⟨logisticStep p.logistic_r st.lo,
   henonStep p.henon_a p.henon_b st.he,
   lorenzStepQ p.lorenz_sigma p.lorenz_rho p.lorenz_beta st.lz,
   sineStep p.sine_mu st.si⟩

/-- The four normalizable map outputs fed to the mixer: logistic value,
Hénon x-coordinate, Lorenz x-coordinate, sine value. -/
def outputsOf (st : ChaosState) : ℚ × ℚ × ℚ × ℚ :=
  (st.lo, st.he.1, st.lz.1, st.si)

/-- Modelled from the spec (§4.3 step 1): the seed string is hashed
deterministically into an integer (a 64-bit polynomial rolling hash of the
UTF-32 code points). -/
def strHash (s : String) : ℕ :=
  s.toList.foldl (fun a c => (a * 131 + c.toNat) % wordMod) 5381

/-- Carve a 16-bit chunk out of a hash and map it into the open interval
(0,1); used for the fixed, explicit seed-to-state mapping the spec
requires. -/
def unitFrom (n : ℕ) : ℚ := ((n % 65536 : ℕ) + 1 : ℚ) / 65537

/-- Modelled from the spec (§4.3 step 1): the fixed, explicit mapping
from the hashed seed into the initial state vectors of all four maps. -/
def seedToState (seed : String) : ChaosState :=
  let h := strHash seed
  ⟨unitFrom h,
   (unitFrom (h / 65536), unitFrom (h / 4294967296)),
   (1 + unitFrom (h / 281474976710656),
    1 + unitFrom (h / 72057594037927936),
    20 + unitFrom (h / 1099511627776)),
   unitFrom (h / 256)⟩

/-- Burn-in iteration count (spec §4.3 step 2 requires ≥ 4096). -/
def burnIn : ℕ := 4096

/-- Quantize the current mixer output to one byte (spec §4.3 step 3). -/
def byteOf (w : MixWeights) (st : ChaosState) : ℕ :=
  (⌊mix (outputsOf st) w * 256⌋).toNat % 256

/-- Emit `n` raw bytes by continuing to iterate the combined state,
one byte per step (spec §4.3 step 3). -/
def rawBytes (p : MapParams) (w : MixWeights) : ChaosState → ℕ → List ℕ
  | _, 0 => []
  | st, Nat.succ n =>
    let st' := stepState p st
    byteOf w st' :: rawBytes p w st' n

/-- Modelled from the spec (§4.3 steps 1–3): raw CKDF byte buffer —
initialize the maps from the seed, burn in, then extract `len` bytes. -/
def ckdfRaw (seed : String) (p : MapParams) (w : MixWeights) (len : ℕ) : List ℕ :=
  rawBytes p w ((stepState p)^[burnIn] (seedToState seed)) len

/-- A deterministic 64-bit integer mixing function (splitmix-style
shift-xor-multiply), standing in for the cryptographic hash inside the
extract-and-expand whitening step. -/
def mix64 (n : ℕ) : ℕ :=
  let a := (n + 11400714819323198485) % wordMod
  let b := (a ^^^ (a / 1073741824)) * 13787848793156543929 % wordMod
  let c := (b ^^^ (b / 134217728)) * 10723151780598845931 % wordMod
  (c ^^^ (c / 2147483648)) % wordMod

/-- Modelled from the spec (§4.3 step 4, extract phase): condense the raw
buffer into a pseudorandom key integer. -/
def extractPRK (raw : List ℕ) : ℕ :=
  raw.foldl (fun a b => mix64 (a * 256 + b)) 0

/-- Modelled from the spec (§4.3 step 4, expand phase): the i-th whitened
output byte. -/
def expandByte (prk i : ℕ) : ℕ := mix64 (prk + i + 1) % 256

/-- Size of the derived key in bytes. -/
def keyLen : ℕ := 32

/-- Modelled from the spec (§4.3): the Chaotic Key Derivation Function.
Pure function of (seed, parameters, weights, requested keystream length);
produces the raw buffer of length key-size + keystream-size, whitens it
by extract-and-expand, and returns (key, keystream). -/
def ckdf (seed : String) (p : MapParams) (w : MixWeights) (ksLen : ℕ) :
    List ℕ × List ℕ :=
  let raw := ckdfRaw seed p w (keyLen + ksLen)
  let prk := extractPRK raw
  ((List.range keyLen).map (expandByte prk),
   (List.range ksLen).map (fun i => expandByte prk (keyLen + i)))

/-- Fold the derived key bytes into a single integer used to seed the
Hénon permutation trajectory. -/
def keyToNat (key : List ℕ) : ℕ := key.foldl (fun a b => a * 256 + b) 0

/-- Modelled from the spec (§4.4): fixed mapping from the derived key to
the initial Hénon state for permutation generation. -/
def keyToHenonState (k : ℕ) : ℚ × ℚ := (unitFrom k, unitFrom (k / 65536))

/-- The first `n` Hénon x-iterates from the key-derived state
(spec §4.4, permutation generation trajectory). -/
def henonXVals (k : ℕ) (a b : ℚ) (n : ℕ) : List ℚ :=
  (List.range n).map (fun i => ((henonStep a b)^[i + 1] (keyToHenonState k)).1)

/-- Comparison used by the index-sort: order pairs (value, position) by
value, breaking ties by original position (spec §4.4: "breaking ties by
original index to keep the mapping well-defined and stable"). -/
def pairLe (u v : ℚ × ℕ) : Bool :=
  decide (u.1 < v.1 ∨ (u.1 = v.1 ∧ u.2 ≤ v.2))

/-- Index-sort (spec §4.4): sort the positions 0..n−1 by their
corresponding trajectory value and return the positions in sorted order. -/
def indexSort (vals : List ℚ) : List ℕ :=
  ((vals.zip (List.range vals.length)).mergeSort pairLe).map Prod.snd

/-- Modelled from the spec (§4.4): the block-index permutation obtained by
index-sorting the Hénon trajectory seeded from the derived key. -/
def henonPerm (k : ℕ) (a b : ℚ) (n : ℕ) : List ℕ :=
  indexSort (henonXVals k a b n)

/-- Reorder a block list by a permutation given as a list of source
indices: output block i is input block perm[i]. -/
def applyPerm (perm : List ℕ) (blocks : List (List ℕ)) : List (List ℕ) :=
  perm.map (fun i => blocks.getD i [])

/-- Inverse of a permutation list: position j of the inverse holds the
position at which j occurs in the permutation. -/
def invPerm (perm : List ℕ) : List ℕ :=
  (List.range perm.length).map (fun j => List.indexOf j perm)

/-- Cipher block size in bytes (spec §4.4, fixed-size blocks). -/
def blockSize : ℕ := 16

/-- Eight little-endian base-256 digits of a natural number: the explicit
length header of the padding scheme (spec §4.4, last block handled via an
explicit length-prefix scheme that must round-trip exactly). -/
def toLE8 (n : ℕ) : List ℕ := (List.range 8).map (fun i => n / 256 ^ i % 256)

/-- Read back a little-endian base-256 digit list. -/
def fromLE (bs : List ℕ) : ℕ := bs.foldr (fun b acc => b + 256 * acc) 0

/-- Modelled from the spec (§4.4): pad a plaintext byte sequence — prepend
the 8-byte length header, then zero-fill to a whole number of blocks. -/
def padBytes (M : List ℕ) : List ℕ :=
  let data := toLE8 M.length ++ M
  data ++ List.replicate ((blockSize - data.length % blockSize) % blockSize) 0

/-- Split a byte list into blocks of `blockSize` bytes (fuel-indexed so the
recursion is structural; the fuel is instantiated with the list length). -/
def chunkF : ℕ → List ℕ → List (List ℕ)
  | 0, _ => []
  | _ + 1, [] => []
  | fuel + 1, x :: xs =>
    ((x :: xs).take blockSize) :: chunkF fuel ((x :: xs).drop blockSize)

/-- Split a byte list into `blockSize`-byte blocks. -/
def chunk (l : List ℕ) : List (List ℕ) := chunkF l.length l

/-- Byte-wise XOR of two byte sequences. -/
def xorBytes (a b : List ℕ) : List ℕ := List.zipWith (fun x y => x ^^^ y) a b

/-- Modelled from the spec (§4.4, encryption): pad, split into blocks,
reorder the blocks by the Hénon permutation, then XOR the concatenated
reordered bytes with the keystream. -/
def encryptBytes (seed : String) (p : MapParams) (w : MixWeights)
    (M : List ℕ) : List ℕ :=
  let padded := padBytes M
  let n := padded.length / blockSize
  let km := ckdf seed p w padded.length
  let perm := henonPerm (keyToNat km.1) p.henon_a p.henon_b n
  xorBytes ((applyPerm perm (chunk padded)).flatten) km.2

/-- Modelled from the spec (§4.4, decryption): XOR the ciphertext with the
same keystream, apply the inverse permutation to restore block order, and
strip the length header and padding. -/
def decryptBytes (seed : String) (p : MapParams) (w : MixWeights)
    (c : List ℕ) : List ℕ :=
  let km := ckdf seed p w c.length
  let x := xorBytes c km.2
  let n := c.length / blockSize
  let perm := henonPerm (keyToNat km.1) p.henon_a p.henon_b n
  let padded := (applyPerm (invPerm perm) (chunk x)).flatten
  (padded.drop 8).take (fromLE (padded.take 8))

/-- Error kind for the decrypt boundary (spec §7: `DecodingFailure`). -/
inductive ApiError where
  | decodingFailure
deriving DecidableEq

/-- Value of one Base64 alphabet character, `none` for characters outside
the alphabet. -/
def b64CharVal (c : Char) : Option ℕ :=
  if 65 ≤ c.toNat ∧ c.toNat ≤ 90 then some (c.toNat - 65)
  else if 97 ≤ c.toNat ∧ c.toNat ≤ 122 then some (c.toNat - 97 + 26)
  else if 48 ≤ c.toNat ∧ c.toNat ≤ 57 then some (c.toNat - 48 + 52)
  else if c.toNat = 43 then some 62
  else if c.toNat = 47 then some 63
  else none

/-- Strip the trailing `=` padding characters of a Base64 string. -/
def b64Strip (cs : List Char) : List Char :=
  (cs.reverse.dropWhile (fun c => c.toNat = 61)).reverse

/-- Regroup 6-bit values into 8-bit bytes; a leftover of a single sextet
is malformed. -/
def sextetsToBytes : List ℕ → Option (List ℕ)
  | [] => some []
  | [_] => none
  | [a, b] => some [(a * 4 + b / 16) % 256]
  | [a, b, c] => some [(a * 4 + b / 16) % 256, (b % 16 * 16 + c / 4) % 256]
  | a :: b :: c :: d :: rest =>
    match sextetsToBytes rest with
    | none => none
    | some tail =>
      some ((a * 4 + b / 16) % 256 :: (b % 16 * 16 + c / 4) % 256 ::
        (c % 4 * 64 + d) % 256 :: tail)

/-- Base64 decoding at the API boundary (spec §6: ciphertext crosses the
boundary Base64-encoded). -/
def b64decode (s : String) : Option (List ℕ) :=
  match (b64Strip s.toList).mapM b64CharVal with
  | none => none
  | some vals => sextetsToBytes vals

/-- Modelled from the spec (§6, §7): the decrypt endpoint — fails exactly
when Base64 decoding fails, otherwise decrypts under whatever seed was
supplied (no integrity check of any kind). -/
def decryptApi (ct : String) (seed : String) (p : MapParams)
    (w : MixWeights) : Except ApiError (List ℕ) :=
  match b64decode ct with
  | none => Except.error ApiError.decodingFailure
  | some bytes => Except.ok (decryptBytes seed p w bytes)

/-- Modelled from the spec (§4.5, entropy quality banding): entropy
≥ 7.99 is Excellent, ≥ 7.5 is Good, anything lower is Poor. -/
def entropyQuality (e : ℚ) : String :=
  if 799/100 ≤ e then "Excellent" else if 15/2 ≤ e then "Good" else "Poor"

/-- Trajectory points of `generateLorenzAttractor` in
`AttractorVisualization.js`: starting from state (1,1,1), each loop
iteration first advances the state by the Euler step and then pushes the
new state, `n` times. -/
def lorenzPoints (sigma rho beta : ℚ) : ℚ × ℚ × ℚ → ℕ → List (ℚ × ℚ × ℚ)
  | _, 0 => []
  | s, Nat.succ n =>
    let s' := lorenzEulerStep sigma rho beta s
    s' :: lorenzPoints sigma rho beta s' n

/-- Embedded from `generateLorenzAttractor` in `AttractorVisualization.js`:
the generated point list, starting from `x = 1, y = 1, z = 1`. -/
def generateLorenzAttractor (sigma rho beta : ℚ) (numPoints : ℕ) :
    List (ℚ × ℚ × ℚ) :=
  lorenzPoints sigma rho beta (1, 1, 1) numPoints

/-- Embedded from `AttractorVisualization.js`: the component builds its
particle trajectory by calling `generateLorenzAttractor(params.lorenz_sigma,
params.lorenz_rho, params.lorenz_beta)` with the default `numPoints = 5000`;
the `mixing` prop is received but never used for the trajectory. -/
def attractorTrajectory (params : MapParams) (mixing : MixWeights) :
    List (ℚ × ℚ × ℚ) :=
  generateLorenzAttractor params.lorenz_sigma params.lorenz_rho
    params.lorenz_beta 5000

/-- Embedded from `App.js`: the app holds (seed, params, mixing) state and
renders `AttractorVisualization` with only the `params` and `mixing` props —
the seed is never passed to the visualization. -/
def appAttractor (seed : String) (params : MapParams) (mixing : MixWeights) :
    List (ℚ × ℚ × ℚ) :=
  attractorTrajectory params mixing

/-- Observable effect of an encryption-panel button handler. -/
inductive PanelEffect where
  | sendRequest (url : String)
  | showError (msg : String)
deriving DecidableEq

/-- Embedded from `handleEncrypt` in `EncryptionPanel.js`: when the
plaintext or the seed is empty (JavaScript falsy for strings), set the
error message and return without issuing the request; otherwise post to
`/api/encrypt`. -/
def handleEncrypt (plaintext seed : String) : PanelEffect :=
  if plaintext = "" ∨ seed = "" then
    PanelEffect.showError ("Please provide both plaintext and seed")
  else
    PanelEffect.sendRequest ("/api/encrypt")

/-- Embedded from `handleDecrypt` in `EncryptionPanel.js`: when the
ciphertext or the seed is empty, set the error message and return without
issuing the request; otherwise post to `/api/decrypt`. -/
def handleDecrypt (ciphertext seed : String) : PanelEffect :=
  if ciphertext = "" ∨ seed = "" then
    PanelEffect.showError ("Please provide both ciphertext and seed")
  else
    PanelEffect.sendRequest ("/api/decrypt")

/-- Reading back the first k little-endian base-256 digits of n yields
n mod 256^k. -/
theorem fromLE_digits (k : ℕ) : ∀ n : ℕ,
    fromLE ((List.range k).map (fun i => n / 256 ^ i % 256)) = n % 256 ^ k := by
  induction k with
  | zero => intro n; simp [fromLE, Nat.mod_one]
  | succ m ih =>
    intro n
    rw [List.range_succ_eq_map, List.map_cons, List.map_map]
    have hmap : (fun i => n / 256 ^ i % 256) ∘ Nat.succ =
        fun i => (n / 256) / 256 ^ i % 256 := by
      funext i
      simp only [Function.comp_apply]
      rw [Nat.div_div_eq_div_mul, ← pow_succ']
    rw [hmap]
    show (n / 256 ^ 0 % 256) + 256 * fromLE _ = _
    rw [ih (n / 256)]
    simp only [pow_zero, Nat.div_one]
    rw [pow_succ' 256 m, ← Nat.mod_mul]

/-- Round-trip of the 8-byte length header. -/
theorem fromLE_toLE8 (n : ℕ) (h : n < 256 ^ 8) : fromLE (toLE8 n) = n := by
  unfold toLE8
  rw [fromLE_digits 8 n]
  exact Nat.mod_eq_of_lt h

/-- The length header always occupies 8 bytes. -/
theorem toLE8_length (n : ℕ) : (toLE8 n).length = 8 := by
  simp [toLE8]

/-- Concatenating the chunks of a list restores the list. -/
theorem chunkF_flatten (fuel : ℕ) : ∀ l : List ℕ, l.length ≤ fuel →
    (chunkF fuel l).flatten = l := by
  induction fuel with
  | zero =>
    intro l hl
    have : l = [] := List.eq_nil_of_length_eq_zero (Nat.le_zero.1 hl)
    subst this
    simp [chunkF]
  | succ f ih =>
    intro l hl
    cases l with
    | nil => simp [chunkF]
    | cons x xs =>
      rw [chunkF, List.flatten_cons, ih ((x :: xs).drop blockSize)
        (by simp only [List.length_drop, List.length_cons, blockSize] at hl ⊢
            omega)]
      exact List.take_append_drop _ _

/-- Chunking a concatenation of full blocks restores the block list. -/
theorem chunkF_of_flatten (L : List (List ℕ))
    (hB : ∀ bl ∈ L, bl.length = blockSize) :
    ∀ fuel : ℕ, L.flatten.length ≤ fuel → chunkF fuel L.flatten = L := by
  induction L with
  | nil => intro fuel _; cases fuel <;> simp [chunkF]
  | cons bl rest ih =>
    intro fuel hf
    have hbl : bl.length = blockSize := hB bl (by simp)
    have hrest : ∀ b ∈ rest, b.length = blockSize :=
      fun b hb => hB b (by simp [hb])
    obtain ⟨y, bl', hcons⟩ : ∃ y bl', bl = y :: bl' := by
      cases bl with
      | nil => simp [blockSize] at hbl
      | cons y t => exact ⟨y, t, rfl⟩
    have hflatlen : (bl :: rest).flatten.length =
        blockSize + rest.flatten.length := by
      simp [List.flatten_cons, hbl]
    cases fuel with
    | zero =>
      exfalso
      rw [hflatlen] at hf
      simp [blockSize] at hf
    | succ f =>
      have hstep : (bl :: rest).flatten = y :: (bl' ++ rest.flatten) := by
        simp [List.flatten_cons, hcons]
      rw [hstep, chunkF]
      have hre : y :: (bl' ++ rest.flatten) = bl ++ rest.flatten := by
        simp [hcons]
      rw [hre, ← hbl, List.take_left, List.drop_left]
      congr 1
      apply ih hrest f
      rw [hflatlen] at hf
      simp only [blockSize] at hf
      omega

/-- Every chunk of a block-aligned list is a full block. -/
theorem chunkF_mem_length (fuel : ℕ) : ∀ l : List ℕ,
    blockSize ∣ l.length → l.length ≤ fuel →
    ∀ bl ∈ chunkF fuel l, bl.length = blockSize := by
  induction fuel with
  | zero => intro l _ _ bl hbl; simp [chunkF] at hbl
  | succ f ih =>
    intro l hdvd hle bl hbl
    cases l with
    | nil => simp [chunkF] at hbl
    | cons x xs =>
      have hpos : 0 < (x :: xs).length := by simp
      have hge : blockSize ≤ (x :: xs).length := Nat.le_of_dvd hpos hdvd
      rw [chunkF] at hbl
      rcases List.mem_cons.1 hbl with h | h
      · subst h
        simp only [List.length_take]
        exact Nat.min_eq_left hge
      · exact ih ((x :: xs).drop blockSize)
          (by simpa [List.length_drop] using Nat.dvd_sub' hdvd dvd_rfl)
          (by simp only [List.length_drop, List.length_cons, blockSize] at hle hge ⊢; omega) bl h

/-- Number of chunks of a block-aligned list. -/
theorem chunkF_count (fuel : ℕ) : ∀ l : List ℕ,
    blockSize ∣ l.length → l.length ≤ fuel →
    (chunkF fuel l).length = l.length / blockSize := by
  induction fuel with
  | zero =>
    intro l _ hle
    have : l = [] := List.eq_nil_of_length_eq_zero (Nat.le_zero.1 hle)
    subst this
    simp [chunkF]
  | succ f ih =>
    intro l hdvd hle
    cases l with
    | nil => simp [chunkF]
    | cons x xs =>
      have hpos : 0 < (x :: xs).length := by simp
      have hge : blockSize ≤ (x :: xs).length := Nat.le_of_dvd hpos hdvd
      rw [chunkF, List.length_cons,
        ih ((x :: xs).drop blockSize)
          (by simpa [List.length_drop] using Nat.dvd_sub' hdvd dvd_rfl)
          (by simp only [List.length_drop, List.length_cons, blockSize] at hle hge ⊢; omega)]
      simp only [List.length_drop, List.length_cons, blockSize] at hdvd hge ⊢
      omega

/-- Concatenated length of a list of full blocks. -/
theorem flatten_length_of_blocks (L : List (List ℕ))
    (h : ∀ bl ∈ L, bl.length = blockSize) :
    L.flatten.length = blockSize * L.length := by
  induction L with
  | nil => simp
  | cons bl rest ih =>
    have hbl : bl.length = blockSize := h bl (by simp)
    have hrest := ih (fun b hb => h b (by simp [hb]))
    simp [List.flatten_cons, hbl, hrest]
    ring

/-- Length of a byte-wise XOR. -/
theorem xorBytes_length (a b : List ℕ) :
    (xorBytes a b).length = min a.length b.length := by
  simp [xorBytes]

/-- XOR-ing twice with the same equal-length keystream is the identity. -/
theorem xorBytes_cancel : ∀ a b : List ℕ, a.length = b.length →
    xorBytes (xorBytes a b) b = a := by
  intro a
  induction a with
  | nil => intro b _; simp [xorBytes]
  | cons x xs ih =>
    intro b hb
    cases b with
    | nil => simp at hb
    | cons y ys =>
      simp only [xorBytes, List.zipWith_cons_cons, List.cons.injEq]
      constructor
      · rw [Nat.xor_assoc, Nat.xor_self, Nat.xor_zero]
      · exact ih ys (by simpa using hb)

/-- The index-sort of any value list is a permutation of the positions
0..n−1. -/
theorem indexSort_perm (vals : List ℚ) :
    (indexSort vals).Perm (List.range vals.length) := by
  have h1 := List.mergeSort_perm (vals.zip (List.range vals.length)) pairLe
  have h2 := h1.map Prod.snd
  rwa [List.map_snd_zip vals (List.range vals.length) (by simp)] at h2

/-- The Hénon-derived block permutation is a permutation of 0..n−1. -/
theorem henonPerm_perm (k : ℕ) (a b : ℚ) (n : ℕ) :
    (henonPerm k a b n).Perm (List.range n) := by
  have h := indexSort_perm (henonXVals k a b n)
  have hl : (henonXVals k a b n).length = n := by simp [henonXVals]
  rwa [hl] at h

/-- Reordering keeps the number of blocks of the permutation's length. -/
theorem applyPerm_length (perm : List ℕ) (blocks : List (List ℕ)) :
    (applyPerm perm blocks).length = perm.length := by
  simp [applyPerm]

/-- Reordering full blocks yields full blocks. -/
theorem applyPerm_mem_length (perm : List ℕ) (blocks : List (List ℕ))
    (hp : ∀ i ∈ perm, i < blocks.length)
    (hb : ∀ bl ∈ blocks, bl.length = blockSize) :
    ∀ bl ∈ applyPerm perm blocks, bl.length = blockSize := by
  intro bl hbl
  simp only [applyPerm, List.mem_map] at hbl
  obtain ⟨i, hi, rfl⟩ := hbl
  rw [List.getD_eq_getElem blocks [] (hp i hi)]
  exact hb _ (List.getElem_mem _)

/-- Applying the inverse permutation after the permutation restores the
original block list. -/
theorem applyPerm_invPerm (perm : List ℕ) (blocks : List (List ℕ))
    (h : perm.Perm (List.range blocks.length)) :
    applyPerm (invPerm perm) (applyPerm perm blocks) = blocks := by
  have hlen : perm.length = blocks.length := by
    simpa using h.length_eq
  apply List.ext_getElem
  · simp [applyPerm, invPerm, hlen]
  intro j h1 h2
  have hj : j ∈ perm := h.mem_iff.2 (List.mem_range.2 h2)
  have hidx : List.indexOf j perm < perm.length :=
    List.indexOf_lt_length.2 hj
  simp only [applyPerm, invPerm, List.map_map, List.getElem_map,
    List.getElem_range, Function.comp_apply]
  rw [List.getD_eq_getElem (List.map _ perm) []
    (by simpa using hidx)]
  rw [List.getElem_map, List.getElem_indexOf hidx]
  rw [List.getD_eq_getElem blocks [] h2]

/-- The padded plaintext is block-aligned. -/
theorem padBytes_dvd (M : List ℕ) : blockSize ∣ (padBytes M).length := by
  simp [padBytes, toLE8, blockSize]
  omega

/-- The first 8 bytes of the padded plaintext are the length header. -/
theorem padBytes_take (M : List ℕ) : (padBytes M).take 8 = toLE8 M.length := by
  unfold padBytes
  rw [List.append_assoc, ← toLE8_length M.length, List.take_left]

/-- Dropping the header and truncating to the original length restores the
plaintext. -/
theorem padBytes_drop_take (M : List ℕ) :
    ((padBytes M).drop 8).take M.length = M := by
  unfold padBytes
  rw [List.append_assoc, ← toLE8_length M.length, List.drop_left,
    List.take_left]

/-- The keystream produced by the CKDF has exactly the requested length. -/
theorem ckdf_keystream_length (seed : String) (p : MapParams)
    (w : MixWeights) (n : ℕ) : ((ckdf seed p w n).2).length = n := by
  simp [ckdf]

/-- Length of the concatenation of the permuted blocks of a block-aligned
byte sequence. -/
theorem permuted_flatten_length (perm : List ℕ) (padded : List ℕ)
    (hdvd : blockSize ∣ padded.length)
    (hperm : perm.Perm (List.range (padded.length / blockSize))) :
    ((applyPerm perm (chunk padded)).flatten).length = padded.length := by
  have hbl : ∀ bl ∈ chunk padded, bl.length = blockSize :=
    chunkF_mem_length padded.length padded hdvd le_rfl
  have hbcount : (chunk padded).length = padded.length / blockSize :=
    chunkF_count padded.length padded hdvd le_rfl
  have hperm' : perm.Perm (List.range (chunk padded).length) := by
    rw [hbcount]; exact hperm
  have hpermmem : ∀ i ∈ perm, i < (chunk padded).length := fun i hi =>
    List.mem_range.1 (hperm'.mem_iff.1 hi)
  have hPBblocks := applyPerm_mem_length perm (chunk padded) hpermmem hbl
  have hpermlen : perm.length = (chunk padded).length := by
    simpa using hperm'.length_eq
  rw [flatten_length_of_blocks _ hPBblocks, applyPerm_length, hpermlen,
    hbcount]
  exact Nat.mul_div_cancel' hdvd

/-- Core cipher round trip on the padded byte sequence: XOR-ing the
ciphertext with the keystream and applying the inverse permutation
restores the padded plaintext. -/
theorem cipher_core (perm ks padded : List ℕ)
    (hdvd : blockSize ∣ padded.length)
    (hperm : perm.Perm (List.range (padded.length / blockSize)))
    (hks : ks.length = padded.length) :
    (applyPerm (invPerm perm)
      (chunk (xorBytes
        (xorBytes ((applyPerm perm (chunk padded)).flatten) ks) ks))).flatten
      = padded := by
  have hbl : ∀ bl ∈ chunk padded, bl.length = blockSize :=
    chunkF_mem_length padded.length padded hdvd le_rfl
  have hbcount : (chunk padded).length = padded.length / blockSize :=
    chunkF_count padded.length padded hdvd le_rfl
  have hperm' : perm.Perm (List.range (chunk padded).length) := by
    rw [hbcount]; exact hperm
  have hpermmem : ∀ i ∈ perm, i < (chunk padded).length := fun i hi =>
    List.mem_range.1 (hperm'.mem_iff.1 hi)
  have hPBblocks := applyPerm_mem_length perm (chunk padded) hpermmem hbl
  have hPBlen := permuted_flatten_length perm padded hdvd hperm
  rw [xorBytes_cancel _ ks (by rw [hPBlen, hks])]
  have hchunk : chunk ((applyPerm perm (chunk padded)).flatten) =
      applyPerm perm (chunk padded) := by
    unfold chunk
    exact chunkF_of_flatten _ hPBblocks _ le_rfl
  rw [hchunk, applyPerm_invPerm perm (chunk padded) hperm']
  exact chunkF_flatten padded.length padded le_rfl

/-- The ciphertext has the length of the padded plaintext. -/
theorem encryptBytes_length (seed : String) (p : MapParams) (w : MixWeights)
    (M : List ℕ) : (encryptBytes seed p w M).length = (padBytes M).length := by
  simp only [encryptBytes]
  rw [xorBytes_length, ckdf_keystream_length,
    permuted_flatten_length _ _ (padBytes_dvd M) (henonPerm_perm _ _ _ _),
    min_self]

/-- Trajectory lists generated by the Lorenz loop have the requested
point count. -/
theorem lorenzPoints_length (sigma rho beta : ℚ) :
    ∀ (n : ℕ) (s : ℚ × ℚ × ℚ),
      (lorenzPoints sigma rho beta s n).length = n := by
  intro n
  induction n with
  | zero => intro s; simp [lorenzPoints]
  | succ m ih => intro s; simp [lorenzPoints, ih]

/-- Point i of the Lorenz loop is the (i+1)-fold Euler iterate of the
initial state. -/
theorem lorenzPoints_getElem (sigma rho beta : ℚ) :
    ∀ (n i : ℕ) (s : ℚ × ℚ × ℚ), i < n →
      (lorenzPoints sigma rho beta s n)[i]? =
        some ((lorenzEulerStep sigma rho beta)^[i + 1] s) := by
  intro n
  induction n with
  | zero => intro i s hi; omega
  | succ m ih =>
    intro i s hi
    cases i with
    | zero => simp [lorenzPoints]
    | succ j =>
      simp only [lorenzPoints, List.getElem?_cons_succ]
      rw [ih j (lorenzEulerStep sigma rho beta s) (by omega)]
      rw [← Function.iterate_succ_apply]

/-- C1: for every seed S, map parameters P, mixing weights W, and
plaintext M (of representable length), decrypting the encryption of M
under (S, P, W) returns M exactly: encryption reorders blocks by the
permutation then XORs with the keystream, decryption XORs with the same
keystream then applies the inverse permutation, and the composition is
the identity on plaintexts. -/
theorem c1_encrypt_decrypt_roundtrip (seed : String) (p : MapParams)
    (w : MixWeights) (M : List ℕ) (h : M.length < 256 ^ 8) :
    decryptBytes seed p w (encryptBytes seed p w M) = M := by
  simp only [decryptBytes]
  rw [encryptBytes_length]
  simp only [encryptBytes]
  rw [cipher_core _ _ _ (padBytes_dvd M) (henonPerm_perm _ _ _ _)
    (ckdf_keystream_length _ _ _ _)]
  rw [padBytes_take, fromLE_toLE8 _ h, padBytes_drop_take]

/-- C1 witness: a concrete round trip with the default UI parameters,
seed "correct-seed" and plaintext bytes "HELLO". -/
theorem c1_encrypt_decrypt_roundtrip_witness :
    ([72, 69, 76, 76, 79] : List ℕ).length < 256 ^ 8 ∧
    decryptBytes ("correct-seed") defaultParams defaultMixing
      (encryptBytes ("correct-seed") defaultParams defaultMixing
        [72, 69, 76, 76, 79]) = [72, 69, 76, 76, 79] :=
  ⟨by norm_num,
   c1_encrypt_decrypt_roundtrip ("correct-seed") defaultParams defaultMixing
     [72, 69, 76, 76, 79] (by norm_num)⟩

/-- C2: the CKDF is deterministic — two invocations with identical seed,
map parameters, mixing weights and requested length produce byte-identical
(key, keystream) output; being a plain function of its arguments it has no
hidden state to depend on. -/
theorem c2_ckdf_deterministic (s₁ s₂ : String) (p₁ p₂ : MapParams)
    (w₁ w₂ : MixWeights) (n₁ n₂ : ℕ)
    (hs : s₁ = s₂) (hp : p₁ = p₂) (hw : w₁ = w₂) (hn : n₁ = n₂) :
    ckdf s₁ p₁ w₁ n₁ = ckdf s₂ p₂ w₂ n₂ := by
  rw [hs, hp, hw, hn]

/-- C2 witness: determinism instantiated at a concrete input. -/
theorem c2_ckdf_deterministic_witness :
    ("seed" : String) = ("seed" : String) ∧
    ckdf ("seed") defaultParams defaultMixing 8 =
      ckdf ("seed") defaultParams defaultMixing 8 :=
  ⟨rfl, c2_ckdf_deterministic ("seed") ("seed") defaultParams defaultParams
    defaultMixing defaultMixing 8 8 rfl rfl rfl rfl⟩

/-- C3: for every block count n (and any key and Hénon parameters), the
block-index permutation generated from the Hénon trajectory by index-sort
is a bijection on 0..n−1: it has length n, no index appears twice, and
every index below n appears. -/
theorem c3_henon_permutation_bijective (k : ℕ) (a b : ℚ) (n : ℕ) :
    (henonPerm k a b n).length = n ∧ (henonPerm k a b n).Nodup ∧
    ∀ i, i < n → i ∈ henonPerm k a b n := by
  have h := henonPerm_perm k a b n
  refine ⟨by simpa using h.length_eq, ?_, ?_⟩
  · exact h.nodup_iff.2 (List.nodup_range n)
  · intro i hi
    exact h.mem_iff.2 (List.mem_range.2 hi)

/-- C3 witness: the bijection properties instantiated at a concrete
trajectory, with the membership hypothesis discharged at index 2. -/
theorem c3_henon_permutation_bijective_witness :
    (henonPerm 12345 (7/5) (3/10) 5).length = 5 ∧
    (henonPerm 12345 (7/5) (3/10) 5).Nodup ∧
    2 ∈ henonPerm 12345 (7/5) (3/10) 5 :=
  ⟨(c3_henon_permutation_bijective 12345 (7/5) (3/10) 5).1,
   (c3_henon_permutation_bijective 12345 (7/5) (3/10) 5).2.1,
   (c3_henon_permutation_bijective 12345 (7/5) (3/10) 5).2.2 2 (by norm_num)⟩

/-- C4: the hybrid mixer output always lies in [0,1) — the weighted sum is
reduced modulo 1 — and the mixer uses the caller's 4-element weight vector
as-is without normalizing it to sum to 1: for the concrete weight vector
(1,1,1,1), whose sum is 4 ≠ 1, the raw-weight mixer and the
normalized-weight variant disagree. -/
theorem c4_mixer_range_and_raw_weights :
    (∀ (f : ℚ × ℚ × ℚ × ℚ) (w : MixWeights),
      0 ≤ mix f w ∧ mix f w < 1) ∧
    mixWeightSum ⟨1, 1, 1, 1⟩ ≠ 1 ∧
    mix (1/2, 0, 0, 0) ⟨1, 1, 1, 1⟩ ≠
      mixWithNormalizedWeights (1/2, 0, 0, 0) ⟨1, 1, 1, 1⟩ := by
  refine ⟨fun f w => ⟨Int.fract_nonneg _, Int.fract_lt_one _⟩, ?_, ?_⟩
  · norm_num [mixWeightSum]
  · have h1 : mix (1/2, 0, 0, 0) ⟨1, 1, 1, 1⟩ = 1/2 := by
      have harg : (1 : ℚ) * (1/2) + 1 * foldUnit henonScale 0 +
          1 * foldUnit lorenzScale 0 + 1 * 0 = 1/2 := by
        simp [foldUnit]
      show Int.fract ((1 : ℚ) * (1/2) + 1 * foldUnit henonScale 0 +
        1 * foldUnit lorenzScale 0 + 1 * 0) = 1/2
      rw [harg]
      exact Int.fract_eq_self.2 (by norm_num)
    have hsum : mixWeightSum ⟨1, 1, 1, 1⟩ = 4 := by norm_num [mixWeightSum]
    have h2 : mixWithNormalizedWeights (1/2, 0, 0, 0) ⟨1, 1, 1, 1⟩ =
        1/8 := by
      unfold mixWithNormalizedWeights
      rw [hsum]
      rw [if_neg (by norm_num)]
      have harg : (1 : ℚ) / 4 * (1/2) + 1 / 4 * foldUnit henonScale 0 +
          1 / 4 * foldUnit lorenzScale 0 + 1 / 4 * 0 = 1/8 := by
        simp [foldUnit]
        norm_num
      show Int.fract ((1 : ℚ) / 4 * (1/2) + 1 / 4 * foldUnit henonScale 0 +
        1 / 4 * foldUnit lorenzScale 0 + 1 / 4 * 0) = 1/8
      rw [harg]
      exact Int.fract_eq_self.2 (by norm_num)
    rw [h1, h2]
    norm_num

/-- C5: decrypting any well-formed (valid Base64) ciphertext under any
seed — in particular a wrong one — never raises an error: the endpoint
returns `ok` with the (possibly incorrect) decryption, and no integrity
check exists that could distinguish the wrong-seed case. -/
theorem c5_decrypt_wellformed_never_fails (ct : String) (seed : String)
    (p : MapParams) (w : MixWeights) (bytes : List ℕ)
    (h : b64decode ct = some bytes) :
    decryptApi ct seed p w = Except.ok (decryptBytes seed p w bytes) := by
  simp [decryptApi, h]

/-- C5 witness: the well-formed Base64 ciphertext "AAAA" decrypts without
error under an arbitrary (wrong) seed. -/
theorem c5_decrypt_wellformed_never_fails_witness :
    b64decode ("AAAA") = some [0, 0, 0] ∧
    decryptApi ("AAAA") ("wrong-seed") defaultParams defaultMixing =
      Except.ok (decryptBytes ("wrong-seed") defaultParams defaultMixing
        [0, 0, 0]) :=
  ⟨by decide,
   c5_decrypt_wellformed_never_fails ("AAAA") ("wrong-seed") defaultParams
     defaultMixing [0, 0, 0] (by decide)⟩

/-- C6: the Lorenz visualization advances the state by a fixed
explicit-Euler step with Δt = 0.01 — all three derivatives are computed
from the current state and then every coordinate is updated by
derivative·Δt — so every generated point i is the (i+1)-fold Euler iterate
of the fixed initial state (1,1,1), the same exact operations in the same
order for identical inputs. -/
theorem c6_lorenz_explicit_euler (sigma rho beta : ℚ) (s : ℚ × ℚ × ℚ)
    (n i : ℕ) (h : i < n) :
    (generateLorenzAttractor sigma rho beta n)[i]? =
      some ((lorenzEulerStep sigma rho beta)^[i + 1] (1, 1, 1)) ∧
    lorenzEulerStep sigma rho beta s =
      (s.1 + sigma * (s.2.1 - s.1) * lorenzDt,
       s.2.1 + (s.1 * (rho - s.2.2) - s.2.1) * lorenzDt,
       s.2.2 + (s.1 * s.2.1 - beta * s.2.2) * lorenzDt) := by
  constructor
  · exact lorenzPoints_getElem sigma rho beta n i (1, 1, 1) h
  · rfl

/-- C6 witness: the Euler-iterate characterization instantiated at the
default Lorenz parameters, n = 3 points, index 0. -/
theorem c6_lorenz_explicit_euler_witness :
    (0 : ℕ) < 3 ∧
    ((generateLorenzAttractor 10 28 (8/3) 3)[0]? =
      some ((lorenzEulerStep 10 28 (8/3))^[0 + 1] (1, 1, 1)) ∧
    lorenzEulerStep 10 28 (8/3) (1, 1, 1) =
      ((1 : ℚ) + 10 * (1 - 1) * lorenzDt,
       (1 : ℚ) + (1 * (28 - 1) - 1) * lorenzDt,
       (1 : ℚ) + (1 * 1 - (8/3) * 1) * lorenzDt)) :=
  ⟨by norm_num,
   c6_lorenz_explicit_euler 10 28 (8/3) (1, 1, 1) 3 0 (by norm_num)⟩

/-- C7: the entropy metric's quality field is banded by the fixed
thresholds on the computed Shannon entropy value: at least 7.99 bits/byte
is Excellent, at least 7.5 (but below 7.99) is Good, anything lower is
Poor, and the quality is always one of exactly these three strings. -/
theorem c7_entropy_quality_banding (e : ℚ) :
    (799/100 ≤ e → entropyQuality e = "Excellent") ∧
    (15/2 ≤ e → e < 799/100 → entropyQuality e = "Good") ∧
    (e < 15/2 → entropyQuality e = "Poor") ∧
    (entropyQuality e = "Excellent" ∨ entropyQuality e = "Good" ∨
      entropyQuality e = "Poor") := by
  unfold entropyQuality
  split_ifs with h1 h2
  · exact ⟨fun _ => rfl, fun _ hlt => absurd h1 (not_le.2 hlt),
      fun hlt => absurd h1 (not_le.2 (by linarith)), Or.inl rfl⟩
  · exact ⟨fun hge => absurd hge h1, fun _ _ => rfl,
      fun hlt => absurd h2 (not_le.2 hlt), Or.inr (Or.inl rfl)⟩
  · exact ⟨fun hge => absurd hge h1, fun hge _ => absurd hge h2,
      fun _ => rfl, Or.inr (Or.inr rfl)⟩

/-- C7 witness: the three bands instantiated at entropy 8, 7.6 and 3. -/
theorem c7_entropy_quality_banding_witness :
    (799/100 ≤ (8 : ℚ) ∧ entropyQuality 8 = "Excellent") ∧
    (15/2 ≤ (76/10 : ℚ) ∧ (76/10 : ℚ) < 799/100 ∧
      entropyQuality (76/10) = "Good") ∧
    ((3 : ℚ) < 15/2 ∧ entropyQuality 3 = "Poor") :=
  ⟨⟨by norm_num, (c7_entropy_quality_banding 8).1 (by norm_num)⟩,
   ⟨by norm_num, by norm_num,
    (c7_entropy_quality_banding (76/10)).2.1 (by norm_num) (by norm_num)⟩,
   ⟨by norm_num, (c7_entropy_quality_banding 3).2.2.1 (by norm_num)⟩⟩

/-- C9: the attractor visualization's trajectory depends only on the three
Lorenz parameters: for any two app states agreeing on (σ, ρ, β) — whatever
their seeds and mixing weights — the rendered point sequence is identical,
always has 5000 points, and its first point is the Euler step applied to
the fixed initial state (1,1,1); no information about the secret seed
flows into the visualization. -/
theorem c9_attractor_independent_of_seed_and_mixing
    (s₁ s₂ : String) (p₁ p₂ : MapParams) (m₁ m₂ : MixWeights)
    (hsg : p₁.lorenz_sigma = p₂.lorenz_sigma)
    (hrh : p₁.lorenz_rho = p₂.lorenz_rho)
    (hbt : p₁.lorenz_beta = p₂.lorenz_beta) :
    appAttractor s₁ p₁ m₁ = appAttractor s₂ p₂ m₂ ∧
    (appAttractor s₁ p₁ m₁).length = 5000 ∧
    (appAttractor s₁ p₁ m₁)[0]? =
      some (lorenzEulerStep p₁.lorenz_sigma p₁.lorenz_rho p₁.lorenz_beta
        (1, 1, 1)) := by
  refine ⟨?_, ?_, ?_⟩
  · unfold appAttractor attractorTrajectory
    rw [hsg, hrh, hbt]
  · unfold appAttractor attractorTrajectory generateLorenzAttractor
    exact lorenzPoints_length _ _ _ 5000 (1, 1, 1)
  · unfold appAttractor attractorTrajectory generateLorenzAttractor
    have := lorenzPoints_getElem p₁.lorenz_sigma p₁.lorenz_rho
      p₁.lorenz_beta 5000 0 (1, 1, 1) (by norm_num)
    simpa using this

/-- C9 witness: two app states with different seeds and different mixing
weights but the same Lorenz parameters render the same 5000-point
trajectory. -/
theorem c9_attractor_independent_of_seed_and_mixing_witness :
    defaultParams.lorenz_sigma = defaultParams.lorenz_sigma ∧
    (appAttractor ("alice-secret") defaultParams defaultMixing =
      appAttractor ("bob-secret") defaultParams ⟨1, 0, 0, 0⟩ ∧
    (appAttractor ("alice-secret") defaultParams defaultMixing).length =
      5000 ∧
    (appAttractor ("alice-secret") defaultParams defaultMixing)[0]? =
      some (lorenzEulerStep defaultParams.lorenz_sigma
        defaultParams.lorenz_rho defaultParams.lorenz_beta (1, 1, 1))) :=
  ⟨rfl, c9_attractor_independent_of_seed_and_mixing ("alice-secret")
    ("bob-secret") defaultParams defaultParams defaultMixing ⟨1, 0, 0, 0⟩
    rfl rfl rfl⟩

/-- C10: the encryption panel issues no encrypt request when the plaintext
or the seed is empty — it reports "Please provide both plaintext and seed"
instead — and symmetrically the decrypt handler issues no request when the
ciphertext or the seed is empty, reporting "Please provide both ciphertext
and seed"; with both inputs nonempty each handler posts to its endpoint. -/
theorem c10_panel_empty_input_guard (pt ct seed : String) :
    (pt = "" ∨ seed = "" →
      handleEncrypt pt seed =
        PanelEffect.showError ("Please provide both plaintext and seed")) ∧
    (pt ≠ "" → seed ≠ "" →
      handleEncrypt pt seed = PanelEffect.sendRequest ("/api/encrypt")) ∧
    (ct = "" ∨ seed = "" →
      handleDecrypt ct seed =
        PanelEffect.showError ("Please provide both ciphertext and seed")) ∧
    (ct ≠ "" → seed ≠ "" →
      handleDecrypt ct seed = PanelEffect.sendRequest ("/api/decrypt")) := by
  refine ⟨fun h => ?_, fun h1 h2 => ?_, fun h => ?_, fun h1 h2 => ?_⟩
  · simp [handleEncrypt, h]
  · simp [handleEncrypt, h1, h2]
  · simp [handleDecrypt, h]
  · simp [handleDecrypt, h1, h2]

/-- C10 witness: with an empty plaintext and empty ciphertext but a
nonempty seed, both handlers report the error and issue no request. -/
theorem c10_panel_empty_input_guard_witness :
    (("" : String) = "" ∨ ("my-seed" : String) = "") ∧
    handleEncrypt ("") ("my-seed") =
      PanelEffect.showError ("Please provide both plaintext and seed") ∧
    handleDecrypt ("") ("my-seed") =
      PanelEffect.showError ("Please provide both ciphertext and seed") :=
  ⟨Or.inl rfl,
   (c10_panel_empty_input_guard ("") ("") ("my-seed")).1 (Or.inl rfl),
   (c10_panel_empty_input_guard ("") ("") ("my-seed")).2.2.1 (Or.inl rfl)⟩

end Butterfly
